import Mathlib

/-!
# Stimfit measurement kernels: a shallow embedding

The repository ships the behavioural test suite `src/src/test/measure.cpp`
for the measurement kernels `stf::base`, `stf::peak`, `stf::risetime`,
`stf::maxRise` and `stf::maxDecay`; the kernel implementations themselves
(`src/stimfit/math/measure.{h,cpp}`) are not part of the sources at hand.
The definitions below therefore model the kernels from the specification
(sections 4.1-4.5 and 7), with amplitudes as exact rationals, caller-supplied
cursors as integers (so that `begin = -1` is expressible) and the single
RangeError kind as an explicit error value.
-/

namespace Stf

/-- Peak search direction selector (`stf::direction`). -/
inductive Direction
  | up
  | down
  | both
deriving DecidableEq, Repr

/-- The specific bound a failing call violated (§4.1: the RangeError
identifies which bound was violated). -/
inductive BoundViolation
  | beginBelowZero
  | endBeyondLastIndex
  | beginNotBelowEnd
  | windowNotBelowSpan
  | windowNotBelowLength
deriving DecidableEq, Repr

/-- Modelled from the spec: §7 "Single error kind: RangeError (a
bounds/precondition violation)"; §4.1 says the error identifies which bound
was violated, modelled by the `BoundViolation` payload. -/
inductive MeasureError
  | rangeError (which : BoundViolation)
deriving DecidableEq, Repr

/-- The list of `n` consecutive indices starting at `s`. -/
def idxFrom : ℕ → ℕ → List ℕ
  | _, 0 => []
  | s, n + 1 => s :: idxFrom (s + 1) n

/-- First-occurrence directional scan: walk the candidate indices in order,
replacing the accumulated `(value, index)` pair exactly when `cmp` judges the
candidate's value strictly better. This realises the spec's deterministic
tie-break "first occurrence in ascending scan order" (§4.3, §4.5, §9). -/
def scanBest (f : ℕ → ℚ) (cmp : ℚ → ℚ → Bool) : ℚ × ℕ → List ℕ → ℚ × ℕ
  | acc, [] => acc
  | acc, i :: is => scanBest f cmp (if cmp (f i) acc.1 then (f i, i) else acc) is

/-- Sample access: the waveform sample at index `i`, out-of-range reads
defaulting to 0.  Validated calls never rely on the default. -/
def sample (w : List ℚ) (i : ℕ) : ℚ :=
  w.getD i 0

/-- Modelled from the spec: §4.2.  `base` computes the arithmetic mean of the
inclusive slice `[begin, end]` after validating `begin ≥ 0`, `end ≤ N-1` and
`begin < end`.  The second component models the by-reference output parameter
`var` seen in the test-suite call `stf::base(var, data, llb, ulb)`; the spec
omits its meaning and the tests only pin it to 0 on an all-zero waveform, so
it is modelled as the population variance of the same slice. -/
def base (w : List ℚ) (b e : Int) : Except MeasureError (ℚ × ℚ) :=
  if b < 0 then .error (.rangeError .beginBelowZero)
  else if (w.length : Int) ≤ e then .error (.rangeError .endBeyondLastIndex)
  else if e ≤ b then .error (.rangeError .beginNotBelowEnd)
  else
    let n : ℕ := (e - b).toNat + 1
    let vals : List ℚ := (idxFrom b.toNat n).map (sample w)
    let mean : ℚ := vals.sum / (n : ℚ)
    let var : ℚ := (vals.map (fun x => (x - mean) ^ 2)).sum / (n : ℚ)
    .ok (mean, var)

/-- Modelled from the spec: §4.3.  Binned average of `pM` consecutive samples
used to smooth each candidate position; `pM = 1` means no smoothing (the raw
sample).  The spec does not fix the window's alignment, so the forward window
`[i, i+pM-1]` is used. -/
def smoothed (w : List ℚ) (pM : ℕ) (i : ℕ) : ℚ :=
  ((idxFrom i pM).map (sample w)).sum / (pM : ℚ)

/-- The candidate positions `[begin, end]` scanned by `peak`. -/
def pkCands (b e : Int) : List ℕ :=
  idxFrom b.toNat ((e - b).toNat + 1)

/-- Modelled from the spec: §4.3.  `peak` finds the directional extremum of
`smoothed - baseline` over `[begin, end]` after validating `begin ≥ 0`,
`end ≤ N-1`, `begin < end`.  In `up` mode the accumulator starts at 0, so the
result is never below the baseline-relative zero (it is 0 when the signal
never rises above baseline); `down` is symmetric; `both` returns whichever
candidate has the larger absolute value, an exact tie favouring the positive
excursion (§9 design note).  The location is the integer index of the first
occurrence of the extremum in ascending scan order. -/
def peak (w : List ℚ) (baseline : ℚ) (b e : Int) (pM : ℕ) (dir : Direction) :
    Except MeasureError (ℚ × ℚ) :=
  if b < 0 then .error (.rangeError .beginBelowZero)
  else if (w.length : Int) ≤ e then .error (.rangeError .endBeyondLastIndex)
  else if e ≤ b then .error (.rangeError .beginNotBelowEnd)
  else
    let v : ℕ → ℚ := fun i => smoothed w pM i - baseline
    let upC := scanBest v (fun x y => decide (y < x)) (0, b.toNat) (pkCands b e)
    let downC := scanBest v (fun x y => decide (x < y)) (0, b.toNat) (pkCands b e)
    match dir with
    | .up => .ok (upC.1, (upC.2 : ℚ))
    | .down => .ok (downC.1, (downC.2 : ℚ))
    | .both =>
        if |upC.1| < |downC.1| then .ok (downC.1, (downC.2 : ℚ))
        else .ok (upC.1, (upC.2 : ℚ))

/-- The forward-difference slope of the window `[i, i + wl]` (§4.5). -/
def rdiff (w : List ℚ) (wl : ℕ) (i : ℕ) : ℚ :=
  (sample w (i + wl) - sample w i) / (wl : ℚ)

/-- The admissible left window indices `[begin, end - wl]` scanned by
`maxRise`/`maxDecay`. -/
def slCands (b e : Int) (wl : ℕ) : List ℕ :=
  idxFrom b.toNat ((e - b).toNat - wl + 1)

/-- Shared validation of `maxRise`/`maxDecay` (§4.5): `begin ≥ 0`,
`end ≤ N-1`, the usable range must exceed `windowLength`
(`windowLength < end - begin`), and `windowLength` must be strictly less than
the waveform's total length. -/
def slopeCheck (w : List ℚ) (b e : Int) (wl : ℕ) : Option MeasureError :=
  if b < 0 then some (.rangeError .beginBelowZero)
  else if (w.length : Int) ≤ e then some (.rangeError .endBeyondLastIndex)
  else if e - b ≤ (wl : Int) then some (.rangeError .windowNotBelowSpan)
  else if w.length ≤ wl then some (.rangeError .windowNotBelowLength)
  else none

/-- Modelled from the spec: §4.5.  `maxRise` computes the forward difference
`(sample[i+wl] - sample[i]) / wl` at every admissible `i` in
`[begin, end - wl]` and reports the maximum (steepest upward) slope, the
midpoint location `i + wl/2` of the winning window and the linearly
interpolated amplitude at that midpoint, first window winning on ties. -/
def maxRise (w : List ℚ) (b e : Int) (wl : ℕ) :
    Except MeasureError (ℚ × ℚ × ℚ) :=
  match slopeCheck w b e wl with
  | some err => .error err
  | none =>
    let bN := b.toNat
    let best := scanBest (rdiff w wl) (fun x y => decide (y < x))
      (rdiff w wl bN, bN) (slCands b e wl)
    .ok (best.1, (best.2 : ℚ) + (wl : ℚ) / 2,
      (sample w best.2 + sample w (best.2 + wl)) / 2)

/-- Modelled from the spec: §4.5.  `maxDecay` scans the same forward
differences and reports the maximum-magnitude downward (most negative) slope;
per §8 the reported slope is its magnitude (the impulse example reports 1.0).
Location and amplitude are as for `maxRise`, first window winning on ties. -/
def maxDecay (w : List ℚ) (b e : Int) (wl : ℕ) :
    Except MeasureError (ℚ × ℚ × ℚ) :=
  match slopeCheck w b e wl with
  | some err => .error err
  | none =>
    let bN := b.toNat
    let best := scanBest (rdiff w wl) (fun x y => decide (x < y))
      (rdiff w wl bN, bN) (slCands b e wl)
    .ok (|best.1|, (best.2 : ℚ) + (wl : ℚ) / 2,
      (sample w best.2 + sample w (best.2 + wl)) / 2)

/-- Modelled from the spec: §4.4.  `risetime` scans forward from `begin` for
the first index at or above the lower threshold
`baseline + frac * peakAmplitude`, then for the first subsequent index at or
above the upper threshold `baseline + (1 - frac) * peakAmplitude`, and also
returns the linearly interpolated fractional crossing time of the lower
threshold between the two bracketing samples.  The spec leaves the result
undefined when the range misses a crossing; that case is modelled as `none`. -/
def risetime (w : List ℚ) (baseline amp : ℚ) (b e : Int) (frac : ℚ) :
    Except MeasureError (Option (ℕ × ℕ × ℚ)) :=
  if b < 0 then .error (.rangeError .beginBelowZero)
  else if (w.length : Int) ≤ e then .error (.rangeError .endBeyondLastIndex)
  else if e ≤ b then .error (.rangeError .beginNotBelowEnd)
  else
    let lo := baseline + frac * amp
    let hi := baseline + (1 - frac) * amp
    match (pkCands b e).find? (fun i => decide (lo ≤ sample w i)) with
    | none => .ok none
    | some tLo =>
      match (pkCands b e).find? (fun i => decide (tLo ≤ i ∧ hi ≤ sample w i)) with
      | none => .ok none
      | some tHi =>
          let yBefore := sample w (tLo - 1)
          let yAfter := sample w tLo
          .ok (some (tLo, tHi,
            ((tLo : ℚ) - 1) + (lo - yBefore) / (yAfter - yBefore)))

/-- The impulse waveform of the tests: length `N`, a single sample equal to 1
at index `k`, all others 0. -/
def impulse (N k : ℕ) : List ℚ :=
  (List.range N).map (fun i => if i = k then 1 else 0)

end Stf

namespace Stf

/-! ## Helper lemmas about the index lists and the directional scan -/

theorem mem_idxFrom {i s n : ℕ} : i ∈ idxFrom s n ↔ s ≤ i ∧ i < s + n := by
  induction n generalizing s with
  | zero => simp [idxFrom]
  | succ n ih =>
    simp only [idxFrom, List.mem_cons, ih]
    omega

theorem idxFrom_append (s m t : ℕ) :
    idxFrom s (m + t) = idxFrom s m ++ idxFrom (s + m) t := by
  induction m generalizing s with
  | zero => simp [idxFrom]
  | succ m ih =>
    have : s + (m + 1) = (s + 1) + m := by omega
    simp only [idxFrom, Nat.succ_add, this, List.cons_append, ih (s + 1)]

theorem scanBest_append (f : ℕ → ℚ) (cmp : ℚ → ℚ → Bool) (acc : ℚ × ℕ)
    (l₁ l₂ : List ℕ) :
    scanBest f cmp acc (l₁ ++ l₂) = scanBest f cmp (scanBest f cmp acc l₁) l₂ := by
  induction l₁ generalizing acc with
  | nil => simp [scanBest]
  | cons i is ih =>
    simp only [List.cons_append, scanBest]
    exact ih _

theorem scanBest_keep {f : ℕ → ℚ} {cmp : ℚ → ℚ → Bool} {a : ℚ} {j : ℕ}
    {l : List ℕ} (h : ∀ i ∈ l, cmp (f i) a = false) :
    scanBest f cmp (a, j) l = (a, j) := by
  induction l with
  | nil => rfl
  | cons i is ih =>
    simp only [scanBest, h i (List.mem_cons_self i is)]
    exact ih (fun i hi => h i (List.mem_cons_of_mem _ hi))

theorem scanBest_spike {f : ℕ → ℚ} {cmp : ℚ → ℚ → Bool} {a : ℚ} {j k : ℕ}
    {xs ys : List ℕ} (hxs : ∀ i ∈ xs, cmp (f i) a = false)
    (hk : cmp (f k) a = true) (hys : ∀ i ∈ ys, cmp (f i) (f k) = false) :
    scanBest f cmp (a, j) (xs ++ k :: ys) = (f k, k) := by
  rw [scanBest_append, scanBest_keep hxs]
  simp only [scanBest, hk, if_true]
  exact scanBest_keep hys

theorem scanBest_fst_max (f : ℕ → ℚ) (a : ℚ) (j : ℕ) (l : List ℕ) :
    (scanBest f (fun x y => decide (y < x)) (a, j) l).1 =
      l.foldl (fun acc i => max acc (f i)) a := by
  induction l generalizing a j with
  | nil => rfl
  | cons i is ih =>
    simp only [scanBest, List.foldl_cons]
    rcases lt_or_le a (f i) with h | h
    · rw [if_pos (by simpa using h), ih, max_eq_right h.le]
    · rw [if_neg (by simpa using not_lt.mpr h), ih, max_eq_left h]

theorem scanBest_fst_min (f : ℕ → ℚ) (a : ℚ) (j : ℕ) (l : List ℕ) :
    (scanBest f (fun x y => decide (x < y)) (a, j) l).1 =
      l.foldl (fun acc i => min acc (f i)) a := by
  induction l generalizing a j with
  | nil => rfl
  | cons i is ih =>
    simp only [scanBest, List.foldl_cons]
    rcases lt_or_le (f i) a with h | h
    · rw [if_pos (by simpa using h), ih, min_eq_right h.le]
    · rw [if_neg (by simpa using not_lt.mpr h), ih, min_eq_left h]

theorem foldl_max_init_le (f : ℕ → ℚ) (a : ℚ) (l : List ℕ) :
    a ≤ l.foldl (fun acc i => max acc (f i)) a := by
  induction l generalizing a with
  | nil => exact le_refl a
  | cons i is ih => exact le_trans (le_max_left a (f i)) (ih (max a (f i)))

theorem foldl_max_le_of_mem (f : ℕ → ℚ) (a : ℚ) {l : List ℕ} {i : ℕ}
    (hi : i ∈ l) : f i ≤ l.foldl (fun acc j => max acc (f j)) a := by
  induction l generalizing a with
  | nil => cases hi
  | cons x xs ih =>
    rcases List.mem_cons.mp hi with h | h
    · rw [h]
      exact le_trans (le_max_right a (f x)) (foldl_max_init_le f _ xs)
    · exact ih _ h

theorem foldl_max_cases (f : ℕ → ℚ) (a : ℚ) (l : List ℕ) :
    l.foldl (fun acc i => max acc (f i)) a = a ∨
      ∃ i ∈ l, l.foldl (fun acc i => max acc (f i)) a = f i := by
  induction l generalizing a with
  | nil => exact Or.inl rfl
  | cons x xs ih =>
    simp only [List.foldl_cons]
    rcases ih (max a (f x)) with h | ⟨i, hi, h⟩
    · rcases max_cases a (f x) with ⟨hm, _⟩ | ⟨hm, _⟩
      · exact Or.inl (by rw [h, hm])
      · exact Or.inr ⟨x, List.mem_cons_self x xs, by rw [h, hm]⟩
    · exact Or.inr ⟨i, List.mem_cons_of_mem _ hi, h⟩

theorem foldl_min_le_init (f : ℕ → ℚ) (a : ℚ) (l : List ℕ) :
    l.foldl (fun acc i => min acc (f i)) a ≤ a := by
  induction l generalizing a with
  | nil => exact le_refl a
  | cons i is ih => exact le_trans (ih (min a (f i))) (min_le_left a (f i))

theorem foldl_min_le_of_mem (f : ℕ → ℚ) (a : ℚ) {l : List ℕ} {i : ℕ}
    (hi : i ∈ l) : l.foldl (fun acc j => min acc (f j)) a ≤ f i := by
  induction l generalizing a with
  | nil => cases hi
  | cons x xs ih =>
    rcases List.mem_cons.mp hi with h | h
    · rw [h]
      exact le_trans (foldl_min_le_init f _ xs) (min_le_right a (f x))
    · exact ih _ h

theorem foldl_min_cases (f : ℕ → ℚ) (a : ℚ) (l : List ℕ) :
    l.foldl (fun acc i => min acc (f i)) a = a ∨
      ∃ i ∈ l, l.foldl (fun acc i => min acc (f i)) a = f i := by
  induction l generalizing a with
  | nil => exact Or.inl rfl
  | cons x xs ih =>
    simp only [List.foldl_cons]
    rcases ih (min a (f x)) with h | ⟨i, hi, h⟩
    · rcases min_cases a (f x) with ⟨hm, _⟩ | ⟨hm, _⟩
      · exact Or.inl (by rw [h, hm])
      · exact Or.inr ⟨x, List.mem_cons_self x xs, by rw [h, hm]⟩
    · exact Or.inr ⟨i, List.mem_cons_of_mem _ hi, h⟩

end Stf

namespace Stf

/-! ## Evaluation lemmas for the impulse waveform and for validation -/

theorem length_impulse (N k : ℕ) : (impulse N k).length = N := by
  simp [impulse]

theorem sample_impulse {N k : ℕ} (hk : k < N) (i : ℕ) :
    sample (impulse N k) i = if i = k then 1 else 0 := by
  unfold sample impulse
  rcases lt_or_le i N with h | h
  · rw [List.getD_eq_getElem _ _ (by simpa using h)]
    simp
  · rw [List.getD_eq_default _ _ (by simpa using h)]
    have hik : i ≠ k := by omega
    simp [hik]

theorem smoothed_one (w : List ℚ) (i : ℕ) : smoothed w 1 i = sample w i := by
  simp [smoothed, idxFrom]

theorem rdiff_impulse {N k : ℕ} (hk : k < N) (i : ℕ) :
    rdiff (impulse N k) 1 i =
      if i + 1 = k then 1 else if i = k then -1 else 0 := by
  unfold rdiff
  rw [sample_impulse hk, sample_impulse hk]
  by_cases h1 : i + 1 = k
  · have h2 : i ≠ k := by omega
    simp [h1, h2]
  · by_cases h2 : i = k
    · have h3 : i + 1 ≠ k := h1
      simp [h1, h2]
    · simp [h1, h2]

theorem base_err_begin {w : List ℚ} {b e : Int} (hb : b < 0) :
    base w b e = .error (.rangeError .beginBelowZero) := by
  simp [base, hb]

theorem base_err_end {w : List ℚ} {b e : Int} (hb : 0 ≤ b)
    (he : (w.length : Int) ≤ e) :
    base w b e = .error (.rangeError .endBeyondLastIndex) := by
  simp [base, not_lt.mpr hb, he]

theorem peak_err_begin {w : List ℚ} {baseline : ℚ} {b e : Int} {pM : ℕ}
    {dir : Direction} (hb : b < 0) :
    peak w baseline b e pM dir = .error (.rangeError .beginBelowZero) := by
  simp [peak, hb]

theorem peak_err_end {w : List ℚ} {baseline : ℚ} {b e : Int} {pM : ℕ}
    {dir : Direction} (hb : 0 ≤ b) (he : (w.length : Int) ≤ e) :
    peak w baseline b e pM dir = .error (.rangeError .endBeyondLastIndex) := by
  simp [peak, not_lt.mpr hb, he]

theorem slopeCheck_err {w : List ℚ} {b e : Int} {wl : ℕ}
    (h : b < 0 ∨ (w.length : Int) ≤ e ∨ e - b ≤ (wl : Int) ∨ w.length ≤ wl) :
    ∃ v, slopeCheck w b e wl = some (.rangeError v) := by
  unfold slopeCheck
  by_cases h1 : b < 0
  · exact ⟨_, by rw [if_pos h1]⟩
  · rw [if_neg h1]
    by_cases h2 : (w.length : Int) ≤ e
    · exact ⟨_, by rw [if_pos h2]⟩
    · rw [if_neg h2]
      by_cases h3 : e - b ≤ (wl : Int)
      · exact ⟨_, by rw [if_pos h3]⟩
      · exfalso
        rcases h with h | h | h | h
        · exact h1 h
        · exact h2 h
        · exact h3 h
        · push_neg at h1 h2
          have : e - b ≤ (wl : Int) := by
            have := Int.toNat_of_nonneg h1
            omega
          exact h3 this

theorem slopeCheck_congr {w w2 : List ℚ} {b e : Int} {wl : ℕ}
    (hlen : w2.length = w.length) :
    slopeCheck w2 b e wl = slopeCheck w b e wl := by
  simp [slopeCheck, hlen]

theorem maxRise_err {w : List ℚ} {b e : Int} {wl : ℕ}
    (h : b < 0 ∨ (w.length : Int) ≤ e ∨ e - b ≤ (wl : Int) ∨ w.length ≤ wl) :
    ∃ v, maxRise w b e wl = .error (.rangeError v) := by
  obtain ⟨v, hv⟩ := slopeCheck_err h
  exact ⟨v, by simp [maxRise, hv]⟩

theorem maxDecay_err {w : List ℚ} {b e : Int} {wl : ℕ}
    (h : b < 0 ∨ (w.length : Int) ≤ e ∨ e - b ≤ (wl : Int) ∨ w.length ≤ wl) :
    ∃ v, maxDecay w b e wl = .error (.rangeError v) := by
  obtain ⟨v, hv⟩ := slopeCheck_err h
  exact ⟨v, by simp [maxDecay, hv]⟩

theorem maxRise_congr_of_err {w w2 : List ℚ} {b e : Int} {wl : ℕ}
    (hlen : w2.length = w.length)
    (h : b < 0 ∨ (w.length : Int) ≤ e ∨ e - b ≤ (wl : Int) ∨ w.length ≤ wl) :
    maxRise w2 b e wl = maxRise w b e wl := by
  obtain ⟨v, hv⟩ := slopeCheck_err h
  have hv2 : slopeCheck w2 b e wl = some (.rangeError v) :=
    (slopeCheck_congr hlen).trans hv
  simp [maxRise, hv, hv2]

theorem maxDecay_congr_of_err {w w2 : List ℚ} {b e : Int} {wl : ℕ}
    (hlen : w2.length = w.length)
    (h : b < 0 ∨ (w.length : Int) ≤ e ∨ e - b ≤ (wl : Int) ∨ w.length ≤ wl) :
    maxDecay w2 b e wl = maxDecay w b e wl := by
  obtain ⟨v, hv⟩ := slopeCheck_err h
  have hv2 : slopeCheck w2 b e wl = some (.rangeError v) :=
    (slopeCheck_congr hlen).trans hv
  simp [maxDecay, hv, hv2]

end Stf

namespace Stf

/-! ## Slice lemmas for the baseline -/

theorem length_idxFrom (s n : ℕ) : (idxFrom s n).length = n := by
  induction n generalizing s with
  | zero => rfl
  | succ n ih => simp [idxFrom, ih]

theorem idxFrom_map_sample (w : List ℚ) (s n : ℕ) (h : s + n ≤ w.length) :
    (idxFrom s n).map (sample w) = (w.drop s).take n := by
  induction n generalizing s with
  | zero => simp [idxFrom]
  | succ n ih =>
    have hs : s < w.length := by omega
    rw [idxFrom, List.map_cons, List.drop_eq_getElem_cons hs, List.take_succ_cons]
    congr 1
    · unfold sample
      exact List.getD_eq_getElem _ _ hs
    · exact ih (s + 1) (by omega)

theorem sample_of_allZero {w : List ℚ} (hz : ∀ x ∈ w, x = 0) (i : ℕ) :
    sample w i = 0 := by
  unfold sample
  rcases lt_or_le i w.length with h | h
  · rw [List.getD_eq_getElem _ _ h]
    exact hz _ (List.getElem_mem h)
  · exact List.getD_eq_default _ _ h

theorem base_allZero {w : List ℚ} {b e : Int} (hz : ∀ x ∈ w, x = 0)
    (hb : 0 ≤ b) (hbe : b < e) (he : e < (w.length : Int)) :
    base w b e = .ok (0, 0) := by
  unfold base
  rw [if_neg (not_lt.mpr hb), if_neg (not_le.mpr he), if_neg (not_le.mpr hbe)]
  have hsum : ((idxFrom b.toNat ((e - b).toNat + 1)).map (sample w)).sum = 0 := by
    refine List.sum_eq_zero ?_
    intro x hx
    rcases List.mem_map.mp hx with ⟨i, _, rfl⟩
    exact sample_of_allZero hz i
  have hvar : (((idxFrom b.toNat ((e - b).toNat + 1)).map (sample w)).map
      (fun x => (x - ((idxFrom b.toNat ((e - b).toNat + 1)).map (sample w)).sum /
        (((e - b).toNat + 1 : ℕ) : ℚ)) ^ 2)).sum = 0 := by
    refine List.sum_eq_zero ?_
    intro x hx
    rcases List.mem_map.mp hx with ⟨y, hy, rfl⟩
    rcases List.mem_map.mp hy with ⟨i, _, rfl⟩
    rw [sample_of_allZero hz i, hsum, zero_div, sub_zero]
    norm_num
  simp only [hsum, zero_div]
  simp only [hsum, zero_div] at hvar
  rw [hvar, zero_div]

/-- C3: for every valid range with `begin < end`, `base` returns the
arithmetic mean of the inclusive slice of the waveform from `begin` to `end`;
in particular, for every all-zero waveform it returns 0. -/
theorem C3_base_mean (w : List ℚ) (b e : Int)
    (hb : 0 ≤ b) (hbe : b < e) (he : e < (w.length : Int)) :
    Except.map Prod.fst (base w b e) =
      .ok (((w.drop b.toNat).take ((e - b).toNat + 1)).sum /
        ((((w.drop b.toNat).take ((e - b).toNat + 1)).length : ℕ) : ℚ)) ∧
    ((∀ x ∈ w, x = 0) → base w b e = .ok (0, 0)) := by
  have hn : b.toNat + ((e - b).toNat + 1) ≤ w.length := by omega
  have hvals := idxFrom_map_sample w b.toNat ((e - b).toNat + 1) hn
  have hlen : ((w.drop b.toNat).take ((e - b).toNat + 1)).length
      = (e - b).toNat + 1 := by
    rw [← hvals, List.length_map, length_idxFrom]
  constructor
  · unfold base
    rw [if_neg (not_lt.mpr hb), if_neg (not_le.mpr he), if_neg (not_le.mpr hbe)]
    rw [hlen, ← hvals]
    rfl
  · intro hz
    exact base_allZero hz hb hbe he

/-- C3 witness: instantiation on a concrete waveform and range. -/
theorem C3_base_mean_witness :
    Except.map Prod.fst (base [1, 2, 3, 4] 0 3) =
      .ok (((([1, 2, 3, 4] : List ℚ).drop (0 : Int).toNat).take
          (((3 : Int) - 0).toNat + 1)).sum /
        (((((([1, 2, 3, 4] : List ℚ)).drop (0 : Int).toNat).take
          (((3 : Int) - 0).toNat + 1)).length : ℕ) : ℚ)) ∧
    ((∀ x ∈ ([1, 2, 3, 4] : List ℚ), x = 0) → base [1, 2, 3, 4] 0 3 = .ok (0, 0)) :=
  C3_base_mean [1, 2, 3, 4] 0 3 (by decide) (by decide) (by decide)

/-- C10: `base` carries a second, by-reference scalar output beside its
return value; on every all-zero waveform and valid range a successful call
returns mean 0 and leaves that output parameter equal to 0. -/
theorem C10_base_var_zero (n : ℕ) (b e : Int)
    (hb : 0 ≤ b) (hbe : b < e) (he : e < (n : Int)) :
    base (List.replicate n (0 : ℚ)) b e = .ok (0, 0) := by
  refine base_allZero ?_ hb hbe ?_
  · intro x hx
    exact List.eq_of_mem_replicate hx
  · rw [List.length_replicate]
    exact he

/-- C10 witness: a concrete all-zero waveform. -/
theorem C10_base_var_zero_witness :
    base (List.replicate 5 (0 : ℚ)) 0 4 = .ok (0, 0) :=
  C10_base_var_zero 5 0 4 (by decide) (by decide) (by decide)

end Stf

namespace Stf

/-- C2: each of `base`, `peak`, `maxRise`, `maxDecay` raises a RangeError
when called with `end = N` (one past the last valid index) or `begin = -1`,
and on such a failure reads no sample and produces no partial result: the
outcome is the same for any waveform of the same length. -/
theorem C2_validation_failure (w : List ℚ) (baseline : ℚ) (b e : Int)
    (pM wl : ℕ) (dir : Direction)
    (h : e = (w.length : Int) ∨ b = -1) :
    ((∃ v, base w b e = .error (.rangeError v)) ∧
      ∀ w2, w2.length = w.length → base w2 b e = base w b e) ∧
    ((∃ v, peak w baseline b e pM dir = .error (.rangeError v)) ∧
      ∀ w2, w2.length = w.length →
        peak w2 baseline b e pM dir = peak w baseline b e pM dir) ∧
    ((∃ v, maxRise w b e wl = .error (.rangeError v)) ∧
      ∀ w2, w2.length = w.length → maxRise w2 b e wl = maxRise w b e wl) ∧
    ((∃ v, maxDecay w b e wl = .error (.rangeError v)) ∧
      ∀ w2, w2.length = w.length → maxDecay w2 b e wl = maxDecay w b e wl) := by
  have hcond : b < 0 ∨ (w.length : Int) ≤ e ∨ e - b ≤ (wl : Int) ∨ w.length ≤ wl := by
    rcases h with h | h
    · exact Or.inr (Or.inl (le_of_eq h.symm))
    · exact Or.inl (by omega)
  refine ⟨⟨?_, ?_⟩, ⟨?_, ?_⟩, ⟨?_, ?_⟩, ⟨?_, ?_⟩⟩
  · rcases lt_or_le b 0 with hb | hb
    · exact ⟨_, base_err_begin hb⟩
    · have he : (w.length : Int) ≤ e := by omega
      exact ⟨_, base_err_end hb he⟩
  · intro w2 hlen
    rcases lt_or_le b 0 with hb | hb
    · rw [base_err_begin hb, base_err_begin hb]
    · have he : (w.length : Int) ≤ e := by omega
      rw [base_err_end hb he, base_err_end hb (by rw [hlen]; exact he)]
  · rcases lt_or_le b 0 with hb | hb
    · exact ⟨_, peak_err_begin hb⟩
    · have he : (w.length : Int) ≤ e := by omega
      exact ⟨_, peak_err_end hb he⟩
  · intro w2 hlen
    rcases lt_or_le b 0 with hb | hb
    · rw [peak_err_begin hb, peak_err_begin hb]
    · have he : (w.length : Int) ≤ e := by omega
      rw [peak_err_end hb he, peak_err_end hb (by rw [hlen]; exact he)]
  · exact maxRise_err hcond
  · intro w2 hlen
    exact maxRise_congr_of_err hlen hcond
  · exact maxDecay_err hcond
  · intro w2 hlen
    exact maxDecay_congr_of_err hlen hcond

/-- C2 witness: `end = N` on a concrete length-3 waveform. -/
theorem C2_validation_failure_witness :
    ((∃ v, base [0, 0, 0] 0 3 = .error (.rangeError v)) ∧
      ∀ w2, w2.length = ([0, 0, 0] : List ℚ).length → base w2 0 3 = base [0, 0, 0] 0 3) ∧
    ((∃ v, peak [0, 0, 0] 0 0 3 1 .both = .error (.rangeError v)) ∧
      ∀ w2, w2.length = ([0, 0, 0] : List ℚ).length →
        peak w2 0 0 3 1 .both = peak [0, 0, 0] 0 0 3 1 .both) ∧
    ((∃ v, maxRise [0, 0, 0] 0 3 1 = .error (.rangeError v)) ∧
      ∀ w2, w2.length = ([0, 0, 0] : List ℚ).length →
        maxRise w2 0 3 1 = maxRise [0, 0, 0] 0 3 1) ∧
    ((∃ v, maxDecay [0, 0, 0] 0 3 1 = .error (.rangeError v)) ∧
      ∀ w2, w2.length = ([0, 0, 0] : List ℚ).length →
        maxDecay w2 0 3 1 = maxDecay [0, 0, 0] 0 3 1) :=
  C2_validation_failure [0, 0, 0] 0 0 3 1 1 .both (Or.inl (by decide))

/-- C6: `maxRise` and `maxDecay` raise a RangeError whenever
`windowLength ≥ end - begin` or `windowLength ≥ N`, with no partial scan:
the failing outcome is the same for any waveform of the same length. -/
theorem C6_window_validation (w : List ℚ) (b e : Int) (wl : ℕ)
    (h : e - b ≤ (wl : Int) ∨ w.length ≤ wl) :
    (∃ v, maxRise w b e wl = .error (.rangeError v)) ∧
    (∃ v, maxDecay w b e wl = .error (.rangeError v)) ∧
    (∀ w2, w2.length = w.length →
      maxRise w2 b e wl = maxRise w b e wl ∧
      maxDecay w2 b e wl = maxDecay w b e wl) := by
  have hcond : b < 0 ∨ (w.length : Int) ≤ e ∨ e - b ≤ (wl : Int) ∨ w.length ≤ wl := by
    rcases h with h | h
    · exact Or.inr (Or.inr (Or.inl h))
    · exact Or.inr (Or.inr (Or.inr h))
  exact ⟨maxRise_err hcond, maxDecay_err hcond, fun w2 hlen =>
    ⟨maxRise_congr_of_err hlen hcond, maxDecay_congr_of_err hlen hcond⟩⟩

/-- C6 witness: an all-encompassing window on a concrete waveform
(`windowLength = end - begin` and also `windowLength ≥ N` in a second use). -/
theorem C6_window_validation_witness :
    (∃ v, maxRise [0, 0, 0, 0] 0 3 3 = .error (.rangeError v)) ∧
    (∃ v, maxDecay [0, 0, 0, 0] 0 3 3 = .error (.rangeError v)) ∧
    (∀ w2, w2.length = ([0, 0, 0, 0] : List ℚ).length →
      maxRise w2 0 3 3 = maxRise [0, 0, 0, 0] 0 3 3 ∧
      maxDecay w2 0 3 3 = maxDecay [0, 0, 0, 0] 0 3 3) :=
  C6_window_validation [0, 0, 0, 0] 0 3 3 (Or.inl (by decide))

/-- C8: every kernel is deterministic and stateless: two calls with
identical arguments yield identical results; the embedded kernels take no
state beside their arguments. -/
theorem C8_deterministic (w w2 : List ℚ) (baseline baseline2 amp amp2 frac frac2 : ℚ)
    (b b2 e e2 : Int) (pM pM2 wl wl2 : ℕ) (dir dir2 : Direction)
    (hw : w = w2) (hbl : baseline = baseline2) (hamp : amp = amp2)
    (hfrac : frac = frac2) (hb : b = b2) (he : e = e2) (hpM : pM = pM2)
    (hwl : wl = wl2) (hdir : dir = dir2) :
    base w b e = base w2 b2 e2 ∧
    peak w baseline b e pM dir = peak w2 baseline2 b2 e2 pM2 dir2 ∧
    risetime w baseline amp b e frac = risetime w2 baseline2 amp2 b2 e2 frac2 ∧
    maxRise w b e wl = maxRise w2 b2 e2 wl2 ∧
    maxDecay w b e wl = maxDecay w2 b2 e2 wl2 := by
  subst hw hbl hamp hfrac hb he hpM hwl hdir
  exact ⟨rfl, rfl, rfl, rfl, rfl⟩

/-- C8 witness: concrete identical calls. -/
theorem C8_deterministic_witness :
    base [0, 1] 0 1 = base [0, 1] 0 1 ∧
    peak [0, 1] 0 0 1 1 .up = peak [0, 1] 0 0 1 1 .up ∧
    risetime [0, 1] 0 1 0 1 (1/5) = risetime [0, 1] 0 1 0 1 (1/5) ∧
    maxRise [0, 1] 0 1 1 = maxRise [0, 1] 0 1 1 ∧
    maxDecay [0, 1] 0 1 1 = maxDecay [0, 1] 0 1 1 :=
  C8_deterministic [0, 1] [0, 1] 0 0 1 1 (1/5) (1/5) 0 0 1 1 1 1 1 1 .up .up
    rfl rfl rfl rfl rfl rfl rfl rfl rfl

/-- C9: every failure of `base`, `peak`, `maxRise` or `maxDecay` is signalled
as the one RangeError kind (realised by the single concrete exception type at
the interface): any error value a kernel returns is a `rangeError`. -/
theorem C9_single_error_kind (w : List ℚ) (baseline : ℚ) (b e : Int)
    (pM wl : ℕ) (dir : Direction) (err : MeasureError)
    (h : base w b e = .error err ∨ peak w baseline b e pM dir = .error err ∨
      maxRise w b e wl = .error err ∨ maxDecay w b e wl = .error err) :
    ∃ v, err = .rangeError v := by
  cases err with
  | rangeError v => exact ⟨v, rfl⟩

/-- C9 witness: a concrete failing call whose error is the RangeError kind. -/
theorem C9_single_error_kind_witness :
    ∃ v, MeasureError.rangeError BoundViolation.beginBelowZero = .rangeError v :=
  C9_single_error_kind [0, 0] 0 (-1) 1 1 1 .up
    (MeasureError.rangeError BoundViolation.beginBelowZero)
    (Or.inl (base_err_begin (by decide)))

end Stf

namespace Stf

/-! ## Unfolding equations for validated calls -/

theorem peak_up_eq {w : List ℚ} {baseline : ℚ} {b e : Int} {pM : ℕ}
    (hb : 0 ≤ b) (hbe : b < e) (he : e < (w.length : Int)) :
    peak w baseline b e pM .up = .ok
      ((scanBest (fun i => smoothed w pM i - baseline) (fun x y => decide (y < x))
        (0, b.toNat) (pkCands b e)).1,
       ((scanBest (fun i => smoothed w pM i - baseline) (fun x y => decide (y < x))
        (0, b.toNat) (pkCands b e)).2 : ℚ)) := by
  unfold peak
  rw [if_neg (not_lt.mpr hb), if_neg (not_le.mpr he), if_neg (not_le.mpr hbe)]

theorem peak_down_eq {w : List ℚ} {baseline : ℚ} {b e : Int} {pM : ℕ}
    (hb : 0 ≤ b) (hbe : b < e) (he : e < (w.length : Int)) :
    peak w baseline b e pM .down = .ok
      ((scanBest (fun i => smoothed w pM i - baseline) (fun x y => decide (x < y))
        (0, b.toNat) (pkCands b e)).1,
       ((scanBest (fun i => smoothed w pM i - baseline) (fun x y => decide (x < y))
        (0, b.toNat) (pkCands b e)).2 : ℚ)) := by
  unfold peak
  rw [if_neg (not_lt.mpr hb), if_neg (not_le.mpr he), if_neg (not_le.mpr hbe)]

theorem peak_both_eq {w : List ℚ} {baseline : ℚ} {b e : Int} {pM : ℕ}
    (hb : 0 ≤ b) (hbe : b < e) (he : e < (w.length : Int)) :
    peak w baseline b e pM .both =
      (if |(scanBest (fun i => smoothed w pM i - baseline) (fun x y => decide (y < x))
            (0, b.toNat) (pkCands b e)).1| <
          |(scanBest (fun i => smoothed w pM i - baseline) (fun x y => decide (x < y))
            (0, b.toNat) (pkCands b e)).1|
       then .ok
        ((scanBest (fun i => smoothed w pM i - baseline) (fun x y => decide (x < y))
          (0, b.toNat) (pkCands b e)).1,
         ((scanBest (fun i => smoothed w pM i - baseline) (fun x y => decide (x < y))
          (0, b.toNat) (pkCands b e)).2 : ℚ))
       else .ok
        ((scanBest (fun i => smoothed w pM i - baseline) (fun x y => decide (y < x))
          (0, b.toNat) (pkCands b e)).1,
         ((scanBest (fun i => smoothed w pM i - baseline) (fun x y => decide (y < x))
          (0, b.toNat) (pkCands b e)).2 : ℚ))) := by
  unfold peak
  rw [if_neg (not_lt.mpr hb), if_neg (not_le.mpr he), if_neg (not_le.mpr hbe)]

/-- C5: `peak` in `up` mode returns the maximum of (smoothed sample -
baseline) over the range, clamped to 0 from below — it never reports a value
below zero in this mode, and reports 0 whenever the signal never rises above
the baseline; `down` is symmetric with the minimum, never above zero. -/
theorem C5_peak_direction_policy (w : List ℚ) (baseline : ℚ) (b e : Int)
    (pM : ℕ) (hb : 0 ≤ b) (hbe : b < e) (he : e < (w.length : Int)) :
    (∃ amp loc, peak w baseline b e pM .up = .ok (amp, loc) ∧
      0 ≤ amp ∧
      (∀ i ∈ pkCands b e, smoothed w pM i - baseline ≤ amp) ∧
      (amp = 0 ∨ ∃ i ∈ pkCands b e, smoothed w pM i - baseline = amp) ∧
      ((∀ i ∈ pkCands b e, smoothed w pM i - baseline ≤ 0) → amp = 0)) ∧
    (∃ amp loc, peak w baseline b e pM .down = .ok (amp, loc) ∧
      amp ≤ 0 ∧
      (∀ i ∈ pkCands b e, amp ≤ smoothed w pM i - baseline) ∧
      (amp = 0 ∨ ∃ i ∈ pkCands b e, smoothed w pM i - baseline = amp) ∧
      ((∀ i ∈ pkCands b e, 0 ≤ smoothed w pM i - baseline) → amp = 0)) := by
  constructor
  · refine ⟨_, _, peak_up_eq hb hbe he, ?_, ?_, ?_, ?_⟩
    · rw [scanBest_fst_max]
      exact foldl_max_init_le _ 0 _
    · intro i hi
      rw [scanBest_fst_max]
      exact foldl_max_le_of_mem _ 0 hi
    · rw [scanBest_fst_max]
      rcases foldl_max_cases (fun i => smoothed w pM i - baseline) 0 (pkCands b e)
        with h | ⟨i, hi, h⟩
      · exact Or.inl h
      · exact Or.inr ⟨i, hi, h.symm⟩
    · intro hle
      rw [scanBest_fst_max]
      rcases foldl_max_cases (fun i => smoothed w pM i - baseline) 0 (pkCands b e)
        with h | ⟨i, hi, h⟩
      · exact h
      · exact le_antisymm (h ▸ hle i hi) (foldl_max_init_le _ 0 _)
  · refine ⟨_, _, peak_down_eq hb hbe he, ?_, ?_, ?_, ?_⟩
    · rw [scanBest_fst_min]
      exact foldl_min_le_init _ 0 _
    · intro i hi
      rw [scanBest_fst_min]
      exact foldl_min_le_of_mem _ 0 hi
    · rw [scanBest_fst_min]
      rcases foldl_min_cases (fun i => smoothed w pM i - baseline) 0 (pkCands b e)
        with h | ⟨i, hi, h⟩
      · exact Or.inl h
      · exact Or.inr ⟨i, hi, h.symm⟩
    · intro hle
      rw [scanBest_fst_min]
      rcases foldl_min_cases (fun i => smoothed w pM i - baseline) 0 (pkCands b e)
        with h | ⟨i, hi, h⟩
      · exact h
      · exact le_antisymm (foldl_min_le_init _ 0 _) (h ▸ hle i hi)

/-- C5 witness: the policy at a concrete waveform, baseline and range. -/
theorem C5_peak_direction_policy_witness :
    (∃ amp loc, peak [0, 2, 1] 0 0 2 1 .up = .ok (amp, loc) ∧
      0 ≤ amp ∧
      (∀ i ∈ pkCands 0 2, smoothed [0, 2, 1] 1 i - 0 ≤ amp) ∧
      (amp = 0 ∨ ∃ i ∈ pkCands 0 2, smoothed [0, 2, 1] 1 i - 0 = amp) ∧
      ((∀ i ∈ pkCands 0 2, smoothed [0, 2, 1] 1 i - 0 ≤ 0) → amp = 0)) ∧
    (∃ amp loc, peak [0, 2, 1] 0 0 2 1 .down = .ok (amp, loc) ∧
      amp ≤ 0 ∧
      (∀ i ∈ pkCands 0 2, amp ≤ smoothed [0, 2, 1] 1 i - 0) ∧
      (amp = 0 ∨ ∃ i ∈ pkCands 0 2, smoothed [0, 2, 1] 1 i - 0 = amp) ∧
      ((∀ i ∈ pkCands 0 2, 0 ≤ smoothed [0, 2, 1] 1 i - 0) → amp = 0)) :=
  C5_peak_direction_policy [0, 2, 1] 0 0 2 1 (by decide) (by decide) (by decide)

end Stf

namespace Stf

theorem idxFrom_split {s n k : ℕ} (hs : s ≤ k) (hk : k < s + n) :
    idxFrom s n = idxFrom s (k - s) ++ k :: idxFrom (k + 1) (n - (k - s) - 1) := by
  have h1 : n = (k - s) + ((n - (k - s) - 1) + 1) := by omega
  conv_lhs => rw [h1]
  rw [idxFrom_append]
  have h2 : s + (k - s) = k := by omega
  rw [h2]
  rfl

/-- C4: for an impulse waveform with baseline 0, averaging window 1 and a
valid range containing the impulse index `k`: `up` returns amplitude 1 at
location `k`; `down` returns amplitude 0; `both` returns amplitude 1 at
location `k`, the up candidate having the larger absolute value. -/
theorem C4_peak_impulse (N k : ℕ) (b e : Int)
    (hb : 0 ≤ b) (hbk : b ≤ (k : Int)) (hke : (k : Int) ≤ e) (hbe : b < e)
    (heN : e ≤ (N : Int) - 1) :
    peak (impulse N k) 0 b e 1 .up = .ok (1, (k : ℚ)) ∧
    Except.map Prod.fst (peak (impulse N k) 0 b e 1 .down) = .ok 0 ∧
    peak (impulse N k) 0 b e 1 .both = .ok (1, (k : ℚ)) := by
  have hkN : k < N := by omega
  have he' : e < ((impulse N k).length : Int) := by
    rw [length_impulse]; omega
  have hv : (fun i => smoothed (impulse N k) 1 i - 0)
      = fun i => if i = k then (1 : ℚ) else 0 := by
    funext i
    rw [smoothed_one, sample_impulse hkN, sub_zero]
  have hsplit : idxFrom b.toNat ((e - b).toNat + 1) =
      idxFrom b.toNat (k - b.toNat) ++
        k :: idxFrom (k + 1) (((e - b).toNat + 1) - (k - b.toNat) - 1) :=
    idxFrom_split (by omega) (by omega)
  have hup : scanBest (fun i => smoothed (impulse N k) 1 i - 0)
      (fun x y => decide (y < x)) (0, b.toNat) (pkCands b e) = (1, k) := by
    rw [hv]
    unfold pkCands
    rw [hsplit]
    have hxs : ∀ i ∈ idxFrom b.toNat (k - b.toNat),
        (fun x y => decide (y < x)) (if i = k then (1 : ℚ) else 0) 0 = false := by
      intro i hi
      rcases mem_idxFrom.mp hi with ⟨h1, h2⟩
      have hik : i ≠ k := by omega
      simp [hik]
    have hkk : (fun x y => decide (y < x)) (if k = k then (1 : ℚ) else 0) 0 = true := by
      simp
    have hys : ∀ i ∈ idxFrom (k + 1) (((e - b).toNat + 1) - (k - b.toNat) - 1),
        (fun x y => decide (y < x)) (if i = k then (1 : ℚ) else 0)
          (if k = k then (1 : ℚ) else 0) = false := by
      intro i hi
      rcases mem_idxFrom.mp hi with ⟨h1, h2⟩
      have hik : i ≠ k := by omega
      simp [hik]
    rw [scanBest_spike hxs hkk hys, if_pos rfl]
  have hdown : scanBest (fun i => smoothed (impulse N k) 1 i - 0)
      (fun x y => decide (x < y)) (0, b.toNat) (pkCands b e) = (0, b.toNat) := by
    rw [hv]
    refine scanBest_keep ?_
    intro i hi
    by_cases hik : i = k <;> simp [hik]
  refine ⟨?_, ?_, ?_⟩
  · rw [peak_up_eq hb hbe he', hup]
  · rw [peak_down_eq hb hbe he', hdown]
    rfl
  · rw [peak_both_eq hb hbe he', hup, hdown]
    norm_num

/-- C4 witness: the impulse at index 4 in a length-8 waveform over the full
range. -/
theorem C4_peak_impulse_witness :
    peak (impulse 8 4) 0 0 7 1 .up = .ok (1, ((4 : ℕ) : ℚ)) ∧
    Except.map Prod.fst (peak (impulse 8 4) 0 0 7 1 .down) = .ok 0 ∧
    peak (impulse 8 4) 0 0 7 1 .both = .ok (1, ((4 : ℕ) : ℚ)) :=
  C4_peak_impulse 8 4 0 7 (by decide) (by decide) (by decide) (by decide) (by decide)

end Stf

namespace Stf

theorem slopeCheck_none {w : List ℚ} {b e : Int} {wl : ℕ}
    (hb : 0 ≤ b) (he : e < (w.length : Int)) (hwin : (wl : Int) < e - b)
    (hlen : wl < w.length) :
    slopeCheck w b e wl = none := by
  unfold slopeCheck
  rw [if_neg (not_lt.mpr hb), if_neg (not_le.mpr he),
    if_neg (not_le.mpr hwin), if_neg (not_le.mpr hlen)]

theorem maxRise_eq {w : List ℚ} {b e : Int} {wl : ℕ}
    (hchk : slopeCheck w b e wl = none) :
    maxRise w b e wl = .ok
      ((scanBest (rdiff w wl) (fun x y => decide (y < x))
          (rdiff w wl b.toNat, b.toNat) (slCands b e wl)).1,
       ((scanBest (rdiff w wl) (fun x y => decide (y < x))
          (rdiff w wl b.toNat, b.toNat) (slCands b e wl)).2 : ℚ) + (wl : ℚ) / 2,
       (sample w (scanBest (rdiff w wl) (fun x y => decide (y < x))
          (rdiff w wl b.toNat, b.toNat) (slCands b e wl)).2 +
        sample w ((scanBest (rdiff w wl) (fun x y => decide (y < x))
          (rdiff w wl b.toNat, b.toNat) (slCands b e wl)).2 + wl)) / 2) := by
  unfold maxRise
  rw [hchk]

theorem maxDecay_eq {w : List ℚ} {b e : Int} {wl : ℕ}
    (hchk : slopeCheck w b e wl = none) :
    maxDecay w b e wl = .ok
      (|(scanBest (rdiff w wl) (fun x y => decide (x < y))
          (rdiff w wl b.toNat, b.toNat) (slCands b e wl)).1|,
       ((scanBest (rdiff w wl) (fun x y => decide (x < y))
          (rdiff w wl b.toNat, b.toNat) (slCands b e wl)).2 : ℚ) + (wl : ℚ) / 2,
       (sample w (scanBest (rdiff w wl) (fun x y => decide (x < y))
          (rdiff w wl b.toNat, b.toNat) (slCands b e wl)).2 +
        sample w ((scanBest (rdiff w wl) (fun x y => decide (x < y))
          (rdiff w wl b.toNat, b.toNat) (slCands b e wl)).2 + wl)) / 2) := by
  unfold maxDecay
  rw [hchk]

end Stf

namespace Stf

/-- C1: on an impulse waveform (single 1 at index `k`), `maxRise` and
`maxDecay` with `windowLength = 1` over a valid range containing the impulse
each return slope 1, amplitude 1/2 (the interpolated midpoint value), and a
location `i + 1/2`, the midpoint of the winning forward-difference window:
`i = k - 1` for the rise (its difference is maximal over the range) and
`i = k` for the decay (its difference is minimal over the range). -/
theorem C1_slope_impulse (N k : ℕ) (b e : Int) (hk1 : 1 ≤ k) (hb : 0 ≤ b)
    (hbk : b ≤ (k : Int) - 1) (hke : (k : Int) + 1 ≤ e)
    (heN : e ≤ (N : Int) - 1) :
    (maxRise (impulse N k) b e 1 = .ok (1, ((k : ℚ) - 1) + 1 / 2, 1 / 2) ∧
      ∀ j ∈ slCands b e 1,
        rdiff (impulse N k) 1 j ≤ rdiff (impulse N k) 1 (k - 1)) ∧
    (maxDecay (impulse N k) b e 1 = .ok (1, (k : ℚ) + 1 / 2, 1 / 2) ∧
      ∀ j ∈ slCands b e 1,
        rdiff (impulse N k) 1 k ≤ rdiff (impulse N k) 1 j) := by
  have hkN : k < N := by omega
  have hd : ∀ i, rdiff (impulse N k) 1 i =
      if i + 1 = k then 1 else if i = k then -1 else 0 := rdiff_impulse hkN
  have hchk : slopeCheck (impulse N k) b e 1 = none := by
    refine slopeCheck_none hb ?_ (by omega) ?_
    · rw [length_impulse]; omega
    · rw [length_impulse]; omega
  have hbN : b.toNat ≤ k - 1 := by omega
  have hr1 : rdiff (impulse N k) 1 (k - 1) = 1 := by
    rw [hd]
    have h : (k - 1) + 1 = k := by omega
    rw [if_pos h]
  have hrk : rdiff (impulse N k) 1 k = -1 := by
    rw [hd]
    have h : k + 1 ≠ k := by omega
    rw [if_neg h, if_pos rfl]
  have hs1 : sample (impulse N k) (k - 1) = 0 := by
    rw [sample_impulse hkN]
    have h : k - 1 ≠ k := by omega
    rw [if_neg h]
  have hs2 : sample (impulse N k) k = 1 := by
    rw [sample_impulse hkN, if_pos rfl]
  have hs3 : sample (impulse N k) (k + 1) = 0 := by
    rw [sample_impulse hkN]
    have h : k + 1 ≠ k := by omega
    rw [if_neg h]
  have hcast : ((k - 1 : ℕ) : ℚ) = (k : ℚ) - 1 := by
    have h : k - 1 + 1 = k := by omega
    have h2 := congrArg (fun n : ℕ => (n : ℚ)) h
    push_cast at h2
    linarith
  have hjle : ∀ j, rdiff (impulse N k) 1 j ≤ 1 := by
    intro j
    rw [hd j]
    by_cases h1 : j + 1 = k
    · rw [if_pos h1]
    · rw [if_neg h1]
      by_cases h2 : j = k
      · rw [if_pos h2]; norm_num
      · rw [if_neg h2]; norm_num
  have hjge : ∀ j, -1 ≤ rdiff (impulse N k) 1 j := by
    intro j
    rw [hd j]
    by_cases h1 : j + 1 = k
    · rw [if_pos h1]; norm_num
    · rw [if_neg h1]
      by_cases h2 : j = k
      · rw [if_pos h2]
      · rw [if_neg h2]; norm_num
  have hbestR : scanBest (rdiff (impulse N k) 1) (fun x y => decide (y < x))
      (rdiff (impulse N k) 1 b.toNat, b.toNat) (slCands b e 1) = (1, k - 1) := by
    rcases eq_or_lt_of_le hbN with heq | hlt
    · have hinit : rdiff (impulse N k) 1 b.toNat = 1 := by
        rw [heq, hr1]
      rw [hinit]
      have hkeep : ∀ i ∈ slCands b e 1,
          (fun x y => decide (y < x)) (rdiff (impulse N k) 1 i) 1 = false := by
        intro i _
        simpa using not_lt.mpr (hjle i)
      rw [scanBest_keep hkeep, heq]
    · have hinit : rdiff (impulse N k) 1 b.toNat = 0 := by
        rw [hd]
        have h1 : b.toNat + 1 ≠ k := by omega
        have h2 : b.toNat ≠ k := by omega
        rw [if_neg h1, if_neg h2]
      rw [hinit]
      unfold slCands
      rw [idxFrom_split (s := b.toNat) (n := (e - b).toNat - 1 + 1) (k := k - 1)
        hbN (by omega)]
      have hxs : ∀ i ∈ idxFrom b.toNat ((k - 1) - b.toNat),
          (fun x y => decide (y < x)) (rdiff (impulse N k) 1 i) 0 = false := by
        intro i hi
        rcases mem_idxFrom.mp hi with ⟨h1, h2⟩
        have hik : rdiff (impulse N k) 1 i = 0 := by
          rw [hd]
          have h3 : i + 1 ≠ k := by omega
          have h4 : i ≠ k := by omega
          rw [if_neg h3, if_neg h4]
        simp [hik]
      have hkk : (fun x y => decide (y < x)) (rdiff (impulse N k) 1 (k - 1)) 0
          = true := by
        simp [hr1]
      have hys : ∀ i ∈ idxFrom ((k - 1) + 1)
          (((e - b).toNat - 1 + 1) - ((k - 1) - b.toNat) - 1),
          (fun x y => decide (y < x)) (rdiff (impulse N k) 1 i)
            (rdiff (impulse N k) 1 (k - 1)) = false := by
        intro i _
        rw [hr1]
        simpa using not_lt.mpr (hjle i)
      rw [scanBest_spike hxs hkk hys, hr1]
  have hbestD : scanBest (rdiff (impulse N k) 1) (fun x y => decide (x < y))
      (rdiff (impulse N k) 1 b.toNat, b.toNat) (slCands b e 1) = (-1, k) := by
    unfold slCands
    rw [idxFrom_split (s := b.toNat) (n := (e - b).toNat - 1 + 1) (k := k)
      (by omega) (by omega)]
    have hxs : ∀ i ∈ idxFrom b.toNat (k - b.toNat),
        (fun x y => decide (x < y)) (rdiff (impulse N k) 1 i)
          (rdiff (impulse N k) 1 b.toNat) = false := by
      intro i hi
      rcases mem_idxFrom.mp hi with ⟨h1, h2⟩
      by_cases hbk1 : b.toNat + 1 = k
      · have hib : i = b.toNat := by omega
        rw [hib]
        simp
      · have hinit : rdiff (impulse N k) 1 b.toNat = 0 := by
          rw [hd]
          have h3 : b.toNat ≠ k := by omega
          rw [if_neg hbk1, if_neg h3]
        rw [hinit]
        have hi0 : (0 : ℚ) ≤ rdiff (impulse N k) 1 i := by
          rw [hd]
          by_cases h3 : i + 1 = k
          · rw [if_pos h3]; norm_num
          · have h4 : i ≠ k := by omega
            rw [if_neg h3, if_neg h4]
        simpa using not_lt.mpr hi0
    have hkk : (fun x y => decide (x < y)) (rdiff (impulse N k) 1 k)
        (rdiff (impulse N k) 1 b.toNat) = true := by
      rw [hrk, hd b.toNat]
      by_cases hbk1 : b.toNat + 1 = k
      · rw [if_pos hbk1]; norm_num
      · have h3 : b.toNat ≠ k := by omega
        rw [if_neg hbk1, if_neg h3]; norm_num
    have hys : ∀ i ∈ idxFrom (k + 1)
        (((e - b).toNat - 1 + 1) - (k - b.toNat) - 1),
        (fun x y => decide (x < y)) (rdiff (impulse N k) 1 i)
          (rdiff (impulse N k) 1 k) = false := by
      intro i _
      rw [hrk]
      simpa using not_lt.mpr (hjge i)
    rw [scanBest_spike hxs hkk hys, hrk]
  have hk1' : (k - 1) + 1 = k := by omega
  refine ⟨⟨?_, ?_⟩, ⟨?_, ?_⟩⟩
  · rw [maxRise_eq hchk, hbestR]
    show Except.ok ((1 : ℚ), ((k - 1 : ℕ) : ℚ) + ((1 : ℕ) : ℚ) / 2,
      (sample (impulse N k) (k - 1) + sample (impulse N k) ((k - 1) + 1)) / 2) = _
    rw [hk1', hs1, hs2, hcast]
    norm_num
  · intro j _
    rw [hr1]
    exact hjle j
  · rw [maxDecay_eq hchk, hbestD]
    show Except.ok (|(-1 : ℚ)|, (k : ℚ) + ((1 : ℕ) : ℚ) / 2,
      (sample (impulse N k) k + sample (impulse N k) (k + 1)) / 2) = _
    rw [hs2, hs3]
    norm_num
  · intro j _
    rw [hrk]
    exact hjge j

/-- C1 witness: the impulse at index 4 in a length-8 waveform over [1, 6]. -/
theorem C1_slope_impulse_witness :
    (maxRise (impulse 8 4) 1 6 1 = .ok (1, (((4 : ℕ) : ℚ) - 1) + 1 / 2, 1 / 2) ∧
      ∀ j ∈ slCands 1 6 1,
        rdiff (impulse 8 4) 1 j ≤ rdiff (impulse 8 4) 1 (4 - 1)) ∧
    (maxDecay (impulse 8 4) 1 6 1 = .ok (1, ((4 : ℕ) : ℚ) + 1 / 2, 1 / 2) ∧
      ∀ j ∈ slCands 1 6 1,
        rdiff (impulse 8 4) 1 4 ≤ rdiff (impulse 8 4) 1 j) :=
  C1_slope_impulse 8 4 1 6 (by decide) (by decide) (by decide) (by decide)
    (by decide)

end Stf
